import Mathlib

/-!
A shallow embedding of the `pipeline` Go repository
(`pipeline/util/util.go`, `pipeline/node/node.go`, `pipeline/pipeline.go`)
together with theorems settling the specification claims about it.

Channels are modelled by their identity and buffer capacity; channel
communication is modelled by explicit item lists and scheduler steps.
Goroutine spawns are counted by an explicit counter placed exactly where the
Go code executes a `go` statement.
-/

namespace PipelineM

/-! ## util.go: FanOut (split primitive) -/

/-- Embeds the inner non-blocking sweep of `FanOut` (`pipeline/util/util.go`):
`for i := 0; i < l; i++ { select { case outputs[currChanIdx] <- val: send = true;
default: }; currChanIdx = (currChanIdx + 1) % l; if send { break } }`.
`ready d = true` means a non-blocking send to destination `d` would be accepted.
The first argument of the recursion is the remaining iteration count (starting
at `l`); returns the accepting destination, if any, and the rotation pointer
after the loop (advanced once on every attempt, including the successful one). -/
def sweep (ready : Nat → Bool) (l : Nat) : Nat → Nat → Option Nat × Nat
  | 0, curr => (none, curr)
  | i + 1, curr =>
    if ready curr then (some curr, (curr + 1) % l)
    else sweep ready l i ((curr + 1) % l)

/-- Embeds the delivery of one value by the `FanOut` worker: the non-blocking
sweep over all `l` destinations, followed by the blocking fallback
`outputs[currChanIdx] <- val; currChanIdx = (currChanIdx + 1) % l` when no
destination accepted non-blockingly (the cancellation branch of the fallback is
not taken in the uncancelled runs the claims are about).
Returns the destination that received the value and the new rotation pointer. -/
def deliver (ready : Nat → Bool) (l : Nat) (curr : Nat) : Nat × Nat :=
  match sweep ready l l curr with
  | (some d, c) => (d, c)
  | (none, c) => (c, (c + 1) % l)

/-- Embeds the `FanOut` distribution loop over a finite input sequence.
`ready k d` tells whether destination `d` would accept a non-blocking send while
the `k`-th item is being distributed (the Go `select`/`default` outcome).
Returns the list of (destination, value) deliveries in order, and the final
rotation pointer. -/
def fanOutRun (ready : Nat → Nat → Bool) (l : Nat) :
    List α → Nat → Nat → List (Nat × α) × Nat
  | [], _, curr => ([], curr)
  | x :: xs, k, curr =>
    let dc := deliver (ready k) l curr
    let rest := fanOutRun ready l xs (k + 1) dc.2
    ((dc.1, x) :: rest.1, rest.2)

/-- The values received by destination `j`, in order, out of a delivery list. -/
def receivedBy (as : List (Nat × α)) (j : Nat) : List α :=
  (as.filter (fun p => p.1 == j)).map Prod.snd

/-! ## util.go: FanIn (merge primitive) -/

/-- The state of one `FanIn` copier goroutine: the items its source channel has
still to deliver, and whether the goroutine has returned (which it does exactly
when it observes its source closed). -/
structure Worker (α : Type) where
  remaining : List α
  done : Bool
deriving DecidableEq

/-- The state of a `FanIn` run: one worker per source, plus the items sent to
the shared output channel so far, in send order. -/
structure FanInSt (α : Type) where
  workers : List (Worker α)
  out : List α
deriving DecidableEq

/-- One scheduler step of `FanIn` (`pipeline/util/util.go`): worker `i` performs
its next loop iteration. If its source still holds an item, the worker receives
it and sends it to the shared output; if the source is exhausted (closed), the
worker observes `ok = false` and returns (`wg.Done`). A finished worker, or an
index with no worker, changes nothing. Receipt and forwarding of one item are
one atomic step; the claims quantify over all schedules, uncancelled. -/
def fanInStep (s : FanInSt α) (i : Nat) : FanInSt α :=
  match s.workers.get? i with
  | some w =>
    if w.done then s
    else
      match w.remaining with
      | x :: rest => ⟨s.workers.set i ⟨rest, false⟩, s.out ++ [x]⟩
      | [] => ⟨s.workers.set i ⟨[], true⟩, s.out⟩
  | none => s

/-- A `FanIn` run: start one worker per source stream and apply the scheduler
steps of `sched` in order. -/
def fanInRun (inputs : List (List α)) (sched : List Nat) : FanInSt α :=
  sched.foldl fanInStep ⟨inputs.map (fun l => ⟨l, false⟩), []⟩

/-- The condition under which `FanIn`'s closer goroutine closes the shared
output channel: `wg.Wait` has returned, i.e. every copier goroutine is done. -/
def fanInClosed (s : FanInSt α) : Bool :=
  s.workers.all (fun w => w.done)

/-! ## node.go: data model -/

/-- A Go channel, modelled by its identity and its buffer capacity. -/
structure Chan where
  id : Nat
  cap : Nat
deriving DecidableEq

/-- `maxIO` from `node.go`: the bit-set width bounding the port counts. -/
def maxIO : Nat := 64

def ErrInputIdxOutOfRange : String := "input index out of range"

def ErrOutputIdxOutOfRange : String := "output index out of range"

def ErrInputsWired : String := "all inputs are wire"

def ErrOutputsWired : String := "all outputs are wire"

/-- `wrapError` from `node.go`: prefixes an error with the node's name. -/
def wrapError (name : String) (err : String) : String :=
  "[" ++ name ++ "] " ++ err

/-- `Node[I, O]` from `node.go`. Input slots hold `none` for Go's nil channel.
The handler is modelled by its presence only (`New` checks it against nil and
nothing else inspects it). `started` embeds the `sync.Once` latch and `spawned`
counts the `go` statements executed inside `started.Do`, so that "at most one
worker execution" is expressible. -/
structure Node where
  name : String
  inputsMask : Nat
  outputsMask : Nat
  inputs : List (Option Chan)
  outputs : List Chan
  handlerPresent : Bool
  started : Bool
  spawned : Nat
deriving DecidableEq

/-- `setBit` from `node.go`: `mask |= 1 << uint(idx)`. Every caller passes a
slot index below the slot count, which `New` bounds by 64, so the `uint64`
arithmetic never overflows and plain `Nat` is exact. -/
def setBit (mask : Nat) (idx : Nat) : Nat :=
  mask ||| (1 <<< idx)

/-- The occupancy test used by `vacantInput` / `vacantOutput` in `node.go`,
as a positive bit test: `(mask & (1 << uint(i))) != 0`. -/
def bitSet (mask : Nat) (idx : Nat) : Bool :=
  mask &&& (1 <<< idx) != 0

/-- `New` from `node.go`. Panics (modelled as `Except.error`) on a nil handler,
a buffer-size list whose length mismatches the output count, or a port count
above `maxIO`; otherwise eagerly allocates the output channels with the given
buffer sizes (0 when the list is omitted) and leaves every input slot nil.
`firstId` supplies the identities of the freshly made channels. -/
def new (name : String) (inputNum outputNum : Nat)
    (outputBuffSize : Option (List Nat)) (handlerPresent : Bool)
    (firstId : Nat) : Except String Node :=
  if handlerPresent = false then .error "nil handler"
  else if outputBuffSize.isSome ∧ (outputBuffSize.getD []).length ≠ outputNum then
    .error "mismatch output buff size"
  else if maxIO < inputNum ∨ maxIO < outputNum then .error "I/O out of range"
  else .ok
    { name := name
      inputsMask := 0
      outputsMask := 0
      inputs := List.replicate inputNum none
      outputs := (List.range outputNum).map (fun i =>
        ⟨firstId + i, match outputBuffSize with
                      | some sizes => sizes.getD i 0
                      | none => 0⟩)
      handlerPresent := handlerPresent
      started := false
      spawned := 0 }

/-- `SetInput` from `node.go`: binds the input slot `idx` and marks it occupied
(`occupyInput`). The index is a Go `int`, hence `Int` here. -/
def setInput (n : Node) (idx : Int) (input : Chan) : Except String Node :=
  if idx < 0 ∨ (n.inputs.length : Int) ≤ idx then
    .error (wrapError n.name ErrInputIdxOutOfRange)
  else .ok
    { n with inputs := n.inputs.set idx.toNat (some input)
             inputsMask := setBit n.inputsMask idx.toNat }

/-- `SetOutput` from `node.go`: binds the output slot `idx` and marks it
occupied (`occupyOutput`). -/
def setOutput (n : Node) (idx : Int) (output : Chan) : Except String Node :=
  if idx < 0 ∨ (n.outputs.length : Int) ≤ idx then
    .error (wrapError n.name ErrOutputIdxOutOfRange)
  else .ok
    { n with outputs := n.outputs.set idx.toNat output
             outputsMask := setBit n.outputsMask idx.toNat }

/-- `vacantInput` from `node.go`: the first input index whose mask bit is
clear; Go's `-1` is `none`. -/
def vacantInput (n : Node) : Option Nat :=
  (List.range n.inputs.length).find? (fun i => !bitSet n.inputsMask i)

/-- `vacantOutput` from `node.go`: the first output index whose mask bit is
clear. -/
def vacantOutput (n : Node) : Option Nat :=
  (List.range n.outputs.length).find? (fun i => !bitSet n.outputsMask i)

/-- `AutowireInput` from `node.go`: binds each given channel to the next vacant
input slot; on exhaustion returns the wired error, keeping the bindings already
made (the node is mutated in place in Go, so the partially wired node is
returned alongside the error). -/
def autowireInput (n : Node) : List Chan → Node × Option String
  | [] => (n, none)
  | ch :: rest =>
    match vacantInput n with
    | none => (n, some (wrapError n.name ErrInputsWired))
    | some idx =>
      match setInput n (idx : Int) ch with
      | .ok n1 => autowireInput n1 rest
      | .error e => (n, some (wrapError n.name e))

/-- `AutowireOutput` from `node.go`: binds each given channel to the next
vacant output slot; on exhaustion returns the wired error, keeping the bindings
already made. -/
def autowireOutput (n : Node) : List Chan → Node × Option String
  | [] => (n, none)
  | ch :: rest =>
    match vacantOutput n with
    | none => (n, some (wrapError n.name ErrOutputsWired))
    | some idx =>
      match setOutput n (idx : Int) ch with
      | .ok n1 => autowireOutput n1 rest
      | .error e => (n, some (wrapError n.name e))

/-- `Connect` from `node.go`: after the two index checks, stores the very
channel of `fromNode`'s output slot into `toNode`'s input slot (the Go code
reinterprets the channel direction with an unsafe cast; channel identity is
preserved, no copy), then marks the destination input slot and the source
output slot occupied. The destination slot's prior occupancy is not checked. -/
def connect (fromNode : Node) (outIdx : Int) (toNode : Node) (inIdx : Int) :
    Except String (Node × Node) :=
  if outIdx < 0 ∨ (fromNode.outputs.length : Int) ≤ outIdx then
    .error (wrapError fromNode.name ErrOutputIdxOutOfRange)
  else if inIdx < 0 ∨ (toNode.inputs.length : Int) ≤ inIdx then
    .error (wrapError toNode.name ErrInputIdxOutOfRange)
  else
    let ch := fromNode.outputs.getD outIdx.toNat ⟨0, 0⟩
    .ok
      ({ fromNode with outputsMask := setBit fromNode.outputsMask outIdx.toNat },
       { toNode with inputs := toNode.inputs.set inIdx.toNat (some ch)
                     inputsMask := setBit toNode.inputsMask inIdx.toNat })

/-- `Autowire` from `node.go`: for each destination node in order, picks the
next vacant output of `fromNode` and the next vacant input of that destination
and connects them; fails fast on whichever side is exhausted, keeping earlier
connections. Returns the updated `fromNode`, the updated destinations, and the
error, if any. -/
def autowire (fromNode : Node) : List Node → (Node × List Node) × Option String
  | [] => ((fromNode, []), none)
  | t :: ts =>
    match vacantOutput fromNode with
    | none => ((fromNode, t :: ts), some (wrapError fromNode.name ErrOutputsWired))
    | some outIdx =>
      match vacantInput t with
      | none => ((fromNode, t :: ts), some (wrapError t.name ErrInputsWired))
      | some inIdx =>
        match connect fromNode (outIdx : Int) t (inIdx : Int) with
        | .ok ft =>
          let r := autowire ft.1 ts
          ((r.1.1, ft.2 :: r.1.2), r.2)
        | .error e => ((fromNode, t :: ts), some (wrapError fromNode.name e))

/-- The indexed traversal of the input check at the top of `Node.Run`
(`for i, ch := range n.inputs { if ch == nil { panic(...) } }`): walks the
slots carrying the running index, stopping at the first nil channel. -/
def firstNilFrom : List (Option Chan) → Nat → Option Nat
  | [], _ => none
  | none :: _, i => some i
  | some _ :: rest, i => firstNilFrom rest (i + 1)

/-- The index reported by the input check at the top of `Node.Run`: the first
input slot holding a nil channel, if any. -/
def firstNilInput (n : Node) : Option Nat :=
  firstNilFrom n.inputs 0

/-- `Node.Run` from `node.go`: panics (modelled as `some` error, node state
untouched, nothing spawned) if some input slot is nil; otherwise `started.Do`
spawns the worker goroutine on the first invocation only. -/
def nodeRun (n : Node) : Node × Option String :=
  match firstNilInput n with
  | some i => (n, some (wrapError n.name ("input " ++ toString i ++ ": unused")))
  | none =>
    if n.started then (n, none)
    else ({ n with started := true, spawned := n.spawned + 1 }, none)

/-- Repeated invocation of `Node.Run` on the same node; a panic aborts the
sequence with the node unchanged. -/
def nodeRunIter : Nat → Node → Node
  | 0, n => n
  | k + 1, n =>
    match nodeRun n with
    | (n1, none) => nodeRunIter k n1
    | (n1, some _) => n1

/-! ## pipeline.go: the orchestrator -/

/-- `Pipeline` from `pipeline.go`. `run` is the `atomic.Bool` run flag,
`errChanClosed` the dedicated close-guard flag, `cancelled` records that the
retained cancel function has been invoked, and `closeCount` counts the
executions of `close(p.errChan)`, so that single-close is expressible. -/
structure Pipe where
  run : Bool
  errChanClosed : Bool
  closeCount : Nat
  cancelled : Bool
  nodes : List Node
deriving DecidableEq

/-- `pipeline.New`: idle, error channel open, no nodes. -/
def pipeNew : Pipe :=
  { run := false, errChanClosed := false, closeCount := 0
    cancelled := false, nodes := [] }

/-- The node-starting loop of `Pipeline.Run`: runs each node in order; a node
panic propagates out of the loop, leaving the remaining nodes untouched. -/
def runNodes : List Node → List Node × Option String
  | [] => ([], none)
  | n :: rest =>
    match nodeRun n with
    | (n1, none) =>
      let r := runNodes rest
      (n1 :: r.1, r.2)
    | (n1, some e) => (n1 :: rest, some e)

/-- `Pipeline.Run` from `pipeline.go`: `run.CompareAndSwap(false, true)` — a
call while already Running returns immediately; otherwise derives the
cancellable context (retaining the cancel function) and starts every node. -/
def pipeRun (p : Pipe) : Pipe × Option String :=
  if p.run then (p, none)
  else
    let r := runNodes p.nodes
    ({ p with run := true, nodes := r.1 }, r.2)

/-- `Pipeline.Wait` from `pipeline.go`, as one whole call: returns at once if
the run flag is down; otherwise waits for the group (no flag effect), performs
the guarded close of the error channel, and lowers the run flag. -/
def pipeWait (p : Pipe) : Pipe :=
  if p.run then
    let p1 :=
      if p.errChanClosed then p
      else { p with errChanClosed := true, closeCount := p.closeCount + 1 }
    { p1 with run := false }
  else p

/-- `Pipeline.Stop` from `pipeline.go`, as one whole call:
`run.CompareAndSwap(true, false)`, then cancel, wait for the group and perform
the guarded close of the error channel. -/
def pipeStop (p : Pipe) : Pipe :=
  if p.run then
    let p1 := { p with run := false, cancelled := true }
    if p1.errChanClosed then p1
    else { p1 with errChanClosed := true, closeCount := p1.closeCount + 1 }
  else p

/-! ## Interleaved Wait/Stop threads (for the single-close claim)

`Wait` and `Stop` are decomposed into their atomic actions on the shared
flags: each load, store and compare-and-swap of `run` / `errChanClosed` is one
step, `wg.Wait` is a step without shared-flag effect, and the `close` guarded
by a successful compare-and-swap on `errChanClosed` happens with that swap
(only the swap winner executes it, so merging the two loses no interleaving
with respect to `closeCount`). -/

/-- Which procedure a thread is executing. -/
inductive TKind where
  | twait
  | tstop
deriving DecidableEq

/-- A thread: its procedure and its program counter (4 means returned). -/
structure Thread where
  kind : TKind
  pc : Nat
deriving DecidableEq

/-- One atomic step of a `Wait` or `Stop` thread against the shared flags.
`Wait`: pc 0 loads `run` (returning if down), pc 1 is `wg.Wait`, pc 2 is the
guarded close, pc 3 stores `run := false`. `Stop`: pc 0 is the
compare-and-swap of `run` from true to false (returning on failure), pc 1
invokes the cancel function, pc 2 is `wg.Wait`, pc 3 the guarded close. -/
def threadStep (g : Pipe) (t : Thread) : Pipe × Thread :=
  match t.kind with
  | .twait =>
    match t.pc with
    | 0 => if g.run then (g, ⟨t.kind, 1⟩) else (g, ⟨t.kind, 4⟩)
    | 1 => (g, ⟨t.kind, 2⟩)
    | 2 =>
      if g.errChanClosed then (g, ⟨t.kind, 3⟩)
      else ({ g with errChanClosed := true, closeCount := g.closeCount + 1 },
            ⟨t.kind, 3⟩)
    | 3 => ({ g with run := false }, ⟨t.kind, 4⟩)
    | _ => (g, t)
  | .tstop =>
    match t.pc with
    | 0 => if g.run then ({ g with run := false }, ⟨t.kind, 1⟩) else (g, ⟨t.kind, 4⟩)
    | 1 => ({ g with cancelled := true }, ⟨t.kind, 2⟩)
    | 2 => (g, ⟨t.kind, 3⟩)
    | 3 =>
      if g.errChanClosed then (g, ⟨t.kind, 4⟩)
      else ({ g with errChanClosed := true, closeCount := g.closeCount + 1 },
            ⟨t.kind, 4⟩)
    | _ => (g, t)

/-- One step of the interleaved system: the scheduled thread `i` takes its next
atomic step. -/
def sysStep (cfg : Pipe × List Thread) (i : Nat) : Pipe × List Thread :=
  match cfg.2.get? i with
  | some t =>
    let gt := threadStep cfg.1 t
    (gt.1, cfg.2.set i gt.2)
  | none => cfg

/-- Runs an interleaving: applies the scheduled thread steps in order. -/
def sysRun (cfg : Pipe × List Thread) (sched : List Nat) : Pipe × List Thread :=
  sched.foldl sysStep cfg

/-! ## Derived notions used by the claim statements -/

/-- The multiset of items a `FanIn` state still owes plus those already sent:
the conserved quantity of a run. -/
def fanInTotal (s : FanInSt α) : Multiset α :=
  (s.out : Multiset α) + (s.workers.map (fun w => (w.remaining : Multiset α))).sum

/-- The invariant tying the error-channel close counter to the close-guard
flag: the channel has never been closed while the guard is down, and never
closed twice. -/
def closeInv (g : Pipe) : Prop :=
  (g.errChanClosed = false → g.closeCount = 0) ∧ g.closeCount ≤ 1

/-- The vacant input slots of a node in ascending order (the indices whose
mask bit is clear); `vacantInput` returns its head. -/
def vacantListIn (n : Node) : List Nat :=
  (List.range n.inputs.length).filter (fun i => !bitSet n.inputsMask i)

/-- The vacant output slots of a node in ascending order. -/
def vacantListOut (n : Node) : List Nat :=
  (List.range n.outputs.length).filter (fun i => !bitSet n.outputsMask i)

/-- The occupancy invariant a node actually maintains: an input mask bit is
set exactly when the slot holds a channel, while an output mask bit merely
points at an existing slot (output slots always hold channels, eagerly
allocated by `New`, yet their bits start clear). -/
def nodeInv (n : Node) : Prop :=
  (∀ i, bitSet n.inputsMask i = true ↔ ∃ ch, n.inputs.get? i = some (some ch)) ∧
  (∀ i, bitSet n.outputsMask i = true → i < n.outputs.length)

/-- One wiring operation, seen from a single node: every mutation of a node's
slots or masks performed by `SetInput`, `SetOutput`, `AutowireInput`,
`AutowireOutput`, `Connect` (on either of its two nodes) or `Autowire` (on its
source node; its effect on a destination node is a `Connect` effect, already
covered). -/
inductive WireOp where
  | opSetInput (idx : Int) (ch : Chan)
  | opSetOutput (idx : Int) (ch : Chan)
  | opAutoIn (chs : List Chan)
  | opAutoOut (chs : List Chan)
  | opConnectAsTo (other : Node) (outIdx : Int) (inIdx : Int)
  | opConnectAsFrom (outIdx : Int) (other : Node) (inIdx : Int)
  | opAutowireAsFrom (tos : List Node)

/-- Applies one wiring operation to the node; a failed operation leaves the
node as the source leaves it (mutations made before the failure are kept,
which for the index-checked operations means none). -/
def applyOp (n : Node) : WireOp → Node
  | .opSetInput idx ch =>
    match setInput n idx ch with
    | .ok n1 => n1
    | .error _ => n
  | .opSetOutput idx ch =>
    match setOutput n idx ch with
    | .ok n1 => n1
    | .error _ => n
  | .opAutoIn chs => (autowireInput n chs).1
  | .opAutoOut chs => (autowireOutput n chs).1
  | .opConnectAsTo other outIdx inIdx =>
    match connect other outIdx n inIdx with
    | .ok ft => ft.2
    | .error _ => n
  | .opConnectAsFrom outIdx other inIdx =>
    match connect n outIdx other inIdx with
    | .ok ft => ft.1
    | .error _ => n
  | .opAutowireAsFrom tos => (autowire n tos).1.1

/-! ## Bit-mask lemmas -/

lemma bitSet_eq_testBit (m i : Nat) : bitSet m i = m.testBit i := by
  unfold bitSet
  rw [Nat.one_shiftLeft, Nat.and_two_pow]
  cases h : m.testBit i <;> simp [(Nat.two_pow_pos i).ne']

lemma bitSet_setBit_self (m i : Nat) : bitSet (setBit m i) i = true := by
  rw [bitSet_eq_testBit]
  unfold setBit
  rw [Nat.one_shiftLeft, Nat.testBit_or, Nat.testBit_two_pow]
  simp

lemma bitSet_setBit_of_ne (m : Nat) {i j : Nat} (h : j ≠ i) :
    bitSet (setBit m i) j = bitSet m j := by
  rw [bitSet_eq_testBit, bitSet_eq_testBit]
  unfold setBit
  rw [Nat.one_shiftLeft, Nat.testBit_or, Nat.testBit_two_pow]
  simp [Ne.symm h]

lemma bitSet_zero (i : Nat) : bitSet 0 i = false := by
  rw [bitSet_eq_testBit]
  exact Nat.zero_testBit i

/-! ## C10: Wait on a pipeline that is not running -/

/-- C10: calling `Wait` on a pipeline whose run flag is down returns at once
and changes nothing at all — the state (run flag, close-guard flag, close
count, cancel flag, node list) is returned untouched, so in particular the
shared error channel is not closed. -/
theorem c10_wait_not_running_noop (p : Pipe) (h : p.run = false) :
    pipeWait p = p := by
  simp [pipeWait, h]

theorem c10_wait_not_running_noop_witness : pipeWait pipeNew = pipeNew :=
  c10_wait_not_running_noop pipeNew rfl

/-! ## C3: the error channel is closed at most once -/

lemma threadStep_closeInv (g : Pipe) (t : Thread) (h : closeInv g) :
    closeInv (threadStep g t).1 := by
  unfold closeInv at h ⊢
  obtain ⟨h1, h2⟩ := h
  obtain ⟨k, pc⟩ := t
  cases k <;> rcases pc with _ | _ | _ | _ | pc <;>
    simp only [threadStep] <;> (try split_ifs) <;>
    constructor <;> simp_all

lemma sysStep_closeInv (cfg : Pipe × List Thread) (i : Nat)
    (h : closeInv cfg.1) : closeInv (sysStep cfg i).1 := by
  unfold sysStep
  cases cfg.2.get? i with
  | none => exact h
  | some t => exact threadStep_closeInv cfg.1 t h

lemma sysRun_closeInv (cfg : Pipe × List Thread) (sched : List Nat)
    (h : closeInv cfg.1) : closeInv (sysRun cfg sched).1 := by
  induction sched generalizing cfg with
  | nil => exact h
  | cons s rest ih => exact ih (sysStep cfg s) (sysStep_closeInv cfg s h)

/-- C3: for every collection of `Wait` and `Stop` threads and every
interleaving of their atomic actions, started from a pipeline whose error
channel is open, `close(errChan)` executes at most once: the close is guarded
by the compare-and-swap on the dedicated `errChanClosed` flag, which only one
thread can win. -/
theorem c3_error_channel_closed_at_most_once
    (p : Pipe) (ts : List Thread) (sched : List Nat)
    (_hopen : p.errChanClosed = false) (hcount : p.closeCount = 0) :
    (sysRun (p, ts) sched).1.closeCount ≤ 1 :=
  (sysRun_closeInv (p, ts) sched
    (show closeInv p from ⟨fun _ => hcount, by omega⟩)).2

theorem c3_error_channel_closed_at_most_once_witness :
    (sysRun ({ pipeNew with run := true },
             [⟨TKind.twait, 0⟩, ⟨TKind.tstop, 0⟩])
            [0, 1, 0, 1, 0, 1, 0, 1]).1.closeCount ≤ 1 :=
  c3_error_channel_closed_at_most_once { pipeNew with run := true }
    [⟨TKind.twait, 0⟩, ⟨TKind.tstop, 0⟩] [0, 1, 0, 1, 0, 1, 0, 1] rfl rfl

/-! ## C9: Run with an unbound input slot panics before spawning -/

lemma firstNilFrom_none (l : List (Option Chan)) (base : Nat)
    (h : firstNilFrom l base = none) : ∀ k, l.get? k ≠ some none := by
  induction l generalizing base with
  | nil => intro k; simp
  | cons a rest ih =>
    intro k
    cases a with
    | none => simp [firstNilFrom] at h
    | some c =>
      cases k with
      | zero => simp
      | succ k =>
        simp only [firstNilFrom] at h
        simpa using ih (base + 1) h k

lemma firstNilFrom_some (l : List (Option Chan)) (base j : Nat)
    (h : firstNilFrom l base = some j) :
    base ≤ j ∧ l.get? (j - base) = some none ∧
      ∀ k < j - base, ∃ c, l.get? k = some (some c) := by
  induction l generalizing base with
  | nil => simp [firstNilFrom] at h
  | cons a rest ih =>
    cases a with
    | none =>
      simp only [firstNilFrom, Option.some.injEq] at h
      subst h
      refine ⟨le_refl _, ?_, ?_⟩
      · simp
      · intro k hk; omega
    | some c =>
      simp only [firstNilFrom] at h
      obtain ⟨h1, h2, h3⟩ := ih (base + 1) h
      refine ⟨by omega, ?_, ?_⟩
      · have : j - base = (j - (base + 1)) + 1 := by omega
        rw [this]
        simpa using h2
      · intro k hk
        cases k with
        | zero => exact ⟨c, by simp⟩
        | succ k =>
          have hk2 : k < j - (base + 1) := by omega
          obtain ⟨d, hd⟩ := h3 k hk2
          exact ⟨d, by simpa using hd⟩

/-- C9: starting a node whose input slot `j` is the first one not bound to a
channel panics with an error naming the node and that slot index, with the
node state returned untouched — in particular `started`/`spawned` are
unchanged, so no worker is spawned; when every input slot is bound, `Run`
does not panic. -/
theorem c9_run_panics_on_unbound_input (n : Node) :
    ((∃ i, n.inputs.get? i = some none) →
      ∃ j, n.inputs.get? j = some none ∧
        (∀ k < j, ∃ c, n.inputs.get? k = some (some c)) ∧
        nodeRun n =
          (n, some (wrapError n.name ("input " ++ toString j ++ ": unused"))))
    ∧ ((∀ i, n.inputs.get? i ≠ some none) → (nodeRun n).2 = none) := by
  constructor
  · rintro ⟨i, hi⟩
    cases hfn : firstNilInput n with
    | none => exact absurd hi (firstNilFrom_none n.inputs 0 hfn i)
    | some j =>
      obtain ⟨-, h2, h3⟩ := firstNilFrom_some n.inputs 0 j hfn
      refine ⟨j, by simpa using h2, by simpa using h3, ?_⟩
      simp [nodeRun, hfn]
  · intro hall
    cases hfn : firstNilInput n with
    | none =>
      simp only [nodeRun, hfn]
      split <;> rfl
    | some j =>
      obtain ⟨-, h2, -⟩ := firstNilFrom_some n.inputs 0 j hfn
      exact absurd (by simpa using h2) (hall j)

theorem c9_run_panics_on_unbound_input_witness :
    nodeRun
      { name := "x", inputsMask := 0, outputsMask := 0,
        inputs := [some ⟨5, 0⟩, none], outputs := [], handlerPresent := true,
        started := false, spawned := 0 } =
      ({ name := "x", inputsMask := 0, outputsMask := 0,
         inputs := [some ⟨5, 0⟩, none], outputs := [], handlerPresent := true,
         started := false, spawned := 0 },
       some "[x] input 1: unused") := by
  obtain ⟨j, hj, hmin, hrun⟩ :=
    (c9_run_panics_on_unbound_input
      { name := "x", inputsMask := 0, outputsMask := 0,
        inputs := [some ⟨5, 0⟩, none], outputs := [], handlerPresent := true,
        started := false, spawned := 0 }).1 ⟨1, rfl⟩
  have hj1 : j = 1 := by
    rcases Nat.lt_trichotomy j 1 with h | h | h
    · interval_cases j
      · simp at hj
    · exact h
    · obtain ⟨c, hc⟩ := hmin 1 h
      simp at hc
  rw [hj1] at hrun
  simpa [wrapError] using hrun

/-! ## C6: construction panics exactly on the three bad configurations -/

/-- C6: `New` panics exactly when the handler is absent, or a buffer-size
list is supplied whose length differs from the output count, or a port count
exceeds 64; on success every input slot is empty and one output channel per
output slot is eagerly allocated, carrying the requested buffer capacity
(0 everywhere when the size list is omitted). -/
theorem c6_new_panics_iff (name : String) (inputNum outputNum : Nat)
    (sizes : Option (List Nat)) (hp : Bool) (fid : Nat) :
    ((∃ e, new name inputNum outputNum sizes hp fid = .error e) ↔
      (hp = false ∨ (∃ l, sizes = some l ∧ l.length ≠ outputNum) ∨
        maxIO < inputNum ∨ maxIO < outputNum))
    ∧ (∀ n, new name inputNum outputNum sizes hp fid = .ok n →
        n.inputs = List.replicate inputNum none ∧
        n.outputs.length = outputNum ∧
        (∀ i, i < outputNum → ∃ c, n.outputs.get? i = some c ∧
          c.cap = (match sizes with | some l => l.getD i 0 | none => 0))) := by
  unfold new
  split_ifs with h1 h2 h3
  · exact ⟨⟨fun _ => Or.inl h1, fun _ => ⟨_, rfl⟩⟩, fun n hn => by simp at hn⟩
  · refine ⟨⟨fun _ => ?_, fun _ => ⟨_, rfl⟩⟩, fun n hn => by simp at hn⟩
    obtain ⟨l, hl⟩ := Option.isSome_iff_exists.mp h2.1
    exact Or.inr (Or.inl ⟨l, hl, by simpa [hl] using h2.2⟩)
  · exact ⟨⟨fun _ => Or.inr (Or.inr h3), fun _ => ⟨_, rfl⟩⟩,
      fun n hn => by simp at hn⟩
  · constructor
    · simp only [exists_false, false_iff]
      · push_neg at h3
        rintro (hf | ⟨l, hl, hlen⟩ | hio | hio)
        · exact h1 hf
        · exact h2 ⟨by simp [hl], by simpa [hl] using hlen⟩
        · omega
        · omega
    · rintro n hn
      injection hn with hn
      subst hn
      refine ⟨rfl, by simp, ?_⟩
      intro i hi
      have hr : (List.range outputNum).get? i = some i := by
        rw [List.get?_eq_getElem?]
        exact List.getElem?_range hi
      cases sizes with
      | none =>
        refine ⟨⟨fid + i, 0⟩, ?_, rfl⟩
        rw [List.get?_map, hr]
        rfl
      | some l =>
        refine ⟨⟨fid + i, l.getD i 0⟩, ?_, rfl⟩
        rw [List.get?_map, hr]
        rfl

theorem c6_new_panics_iff_witness :
    (∃ n, new "w" 1 2 (some [3, 5]) true 10 = .ok n ∧
      n.inputs = List.replicate 1 none ∧ n.outputs.length = 2 ∧
      (∃ c, n.outputs.get? 1 = some c ∧ c.cap = 5)) ∧
    (∃ e, new "w" 1 2 (some [3]) true 10 = .error e) := by
  constructor
  · obtain ⟨hin, hlen, hcap⟩ :=
      (c6_new_panics_iff "w" 1 2 (some [3, 5]) true 10).2
        { name := "w", inputsMask := 0, outputsMask := 0,
          inputs := [none], outputs := [⟨10, 3⟩, ⟨11, 5⟩],
          handlerPresent := true, started := false, spawned := 0 } rfl
    obtain ⟨c, hc, hcv⟩ := hcap 1 Nat.one_lt_two
    exact ⟨_, rfl, hin, hlen, ⟨c, hc, by simpa using hcv⟩⟩
  · exact ((c6_new_panics_iff "w" 1 2 (some [3]) true 10).1).mpr
      (Or.inr (Or.inl ⟨[3], rfl, by simp⟩))

/-! ## C7: Connect checks exactly the two indices and copies no channel -/

/-- C7: `Connect` fails exactly when an index is out of range, with the error
prefixed by the offending node's name (the source's name for a bad output
index, checked first; the destination's for a bad input index); on success
the destination's input slot receives the very channel sitting in the
source's output slot, both slots' mask bits are set, everything else is
unchanged, and the destination slot's prior occupancy is never consulted. -/
theorem c7_connect_spec (fromNode : Node) (outIdx : Int) (toNode : Node)
    (inIdx : Int) :
    ((outIdx < 0 ∨ (fromNode.outputs.length : Int) ≤ outIdx) →
      connect fromNode outIdx toNode inIdx =
        .error (wrapError fromNode.name ErrOutputIdxOutOfRange))
    ∧ (¬(outIdx < 0 ∨ (fromNode.outputs.length : Int) ≤ outIdx) →
       (inIdx < 0 ∨ (toNode.inputs.length : Int) ≤ inIdx) →
      connect fromNode outIdx toNode inIdx =
        .error (wrapError toNode.name ErrInputIdxOutOfRange))
    ∧ (¬(outIdx < 0 ∨ (fromNode.outputs.length : Int) ≤ outIdx) →
       ¬(inIdx < 0 ∨ (toNode.inputs.length : Int) ≤ inIdx) →
      ∃ ch f1 t1,
        fromNode.outputs.get? outIdx.toNat = some ch ∧
        connect fromNode outIdx toNode inIdx = .ok (f1, t1) ∧
        t1.inputs.get? inIdx.toNat = some (some ch) ∧
        bitSet t1.inputsMask inIdx.toNat = true ∧
        bitSet f1.outputsMask outIdx.toNat = true ∧
        (∀ k, k ≠ inIdx.toNat → t1.inputs.get? k = toNode.inputs.get? k) ∧
        (∀ k, k ≠ inIdx.toNat →
          bitSet t1.inputsMask k = bitSet toNode.inputsMask k) ∧
        (∀ k, k ≠ outIdx.toNat →
          bitSet f1.outputsMask k = bitSet fromNode.outputsMask k) ∧
        f1.outputs = fromNode.outputs ∧ f1.name = fromNode.name ∧
        t1.outputs = toNode.outputs ∧ t1.name = toNode.name) := by
  refine ⟨fun h => by simp [connect, h], fun h1 h2 => by simp [connect, h1, h2], ?_⟩
  intro h1 h2
  have ho : outIdx.toNat < fromNode.outputs.length := by omega
  have hi : inIdx.toNat < toNode.inputs.length := by omega
  have hconn : connect fromNode outIdx toNode inIdx = .ok
      ({ fromNode with outputsMask := setBit fromNode.outputsMask outIdx.toNat },
       { toNode with
          inputs := toNode.inputs.set inIdx.toNat
            (some (fromNode.outputs.getD outIdx.toNat ⟨0, 0⟩))
          inputsMask := setBit toNode.inputsMask inIdx.toNat }) := by
    simp [connect, h1, h2]
  refine ⟨fromNode.outputs.getD outIdx.toNat ⟨0, 0⟩, _, _,
    ?_, hconn, ?_, bitSet_setBit_self _ _,
    bitSet_setBit_self _ _, ?_, fun k hk => bitSet_setBit_of_ne _ hk,
    fun k hk => bitSet_setBit_of_ne _ hk, rfl, rfl, rfl, rfl⟩
  · cases hg : fromNode.outputs.get? outIdx.toNat with
    | none => exact absurd (List.get?_eq_none.mp hg) (by omega)
    | some c =>
      rw [List.getD_eq_get?, hg]
      rfl
  · simp [List.get?_eq_getElem?, List.getElem?_set_self hi]
  · intro k hk
    simp [List.get?_eq_getElem?, List.getElem?_set_ne (Ne.symm hk)]

theorem c7_connect_spec_witness :
    (connect
      { name := "f", inputsMask := 0, outputsMask := 0, inputs := [],
        outputs := [⟨9, 2⟩], handlerPresent := true, started := false,
        spawned := 0 } 5
      { name := "t", inputsMask := 1, outputsMask := 0,
        inputs := [some ⟨1, 1⟩], outputs := [], handlerPresent := true,
        started := false, spawned := 0 } 0 =
      .error "[f] output index out of range")
    ∧ (∃ ch f1 t1,
        ({ name := "f", inputsMask := 0, outputsMask := 0, inputs := [],
           outputs := [⟨9, 2⟩], handlerPresent := true, started := false,
           spawned := 0 } : Node).outputs.get? 0 = some ch ∧
        connect
          { name := "f", inputsMask := 0, outputsMask := 0, inputs := [],
            outputs := [⟨9, 2⟩], handlerPresent := true, started := false,
            spawned := 0 } 0
          { name := "t", inputsMask := 1, outputsMask := 0,
            inputs := [some ⟨1, 1⟩], outputs := [], handlerPresent := true,
            started := false, spawned := 0 } 0 = .ok (f1, t1) ∧
        t1.inputs.get? 0 = some (some ch) ∧
        bitSet t1.inputsMask 0 = true ∧ bitSet f1.outputsMask 0 = true) := by
  constructor
  · have h := (c7_connect_spec
      { name := "f", inputsMask := 0, outputsMask := 0, inputs := [],
        outputs := [⟨9, 2⟩], handlerPresent := true, started := false,
        spawned := 0 } 5
      { name := "t", inputsMask := 1, outputsMask := 0,
        inputs := [some ⟨1, 1⟩], outputs := [], handlerPresent := true,
        started := false, spawned := 0 } 0).1 (by right; simp)
    simpa [wrapError, ErrOutputIdxOutOfRange] using h
  · obtain ⟨ch, f1, t1, hch, hok, hslot, hbit1, hbit2, -⟩ :=
      (c7_connect_spec
        { name := "f", inputsMask := 0, outputsMask := 0, inputs := [],
          outputs := [⟨9, 2⟩], handlerPresent := true, started := false,
          spawned := 0 } 0
        { name := "t", inputsMask := 1, outputsMask := 0,
          inputs := [some ⟨1, 1⟩], outputs := [], handlerPresent := true,
          started := false, spawned := 0 } 0).2.2 (by simp) (by simp)
    exact ⟨ch, f1, t1, hch, hok, hslot, hbit1, hbit2⟩

/-! ## C4: starting a node or a pipeline is idempotent -/

lemma nodeRun_snd_none (n : Node) (hb : firstNilInput n = none) :
    (nodeRun n).2 = none := by
  simp only [nodeRun, hb]
  split <;> rfl

lemma nodeRunIter_fix (k : Nat) (n : Node) (hb : firstNilInput n = none)
    (hs : n.started = true) : nodeRunIter k n = n := by
  induction k with
  | zero => rfl
  | succ k ih =>
    have : nodeRun n = (n, none) := by simp [nodeRun, hb, hs]
    simp [nodeRunIter, this, ih]

lemma nodeRunIter_spawned_le (k : Nat) (n : Node) :
    (nodeRunIter k n).spawned ≤ n.spawned + (if n.started then 0 else 1) := by
  induction k generalizing n with
  | zero => split <;> simp [nodeRunIter]
  | succ k ih =>
    cases hfn : firstNilInput n with
    | some i =>
      have : nodeRun n = (n, some (wrapError n.name
          ("input " ++ toString i ++ ": unused"))) := by simp [nodeRun, hfn]
      simp only [nodeRunIter, this]
      split <;> omega
    | none =>
      by_cases hs : n.started
      · have hrun : nodeRun n = (n, none) := by simp [nodeRun, hfn, hs]
        simp only [nodeRunIter, hrun]
        exact ih n
      · have hrun : nodeRun n =
            ({ n with started := true, spawned := n.spawned + 1 }, none) := by
          simp [nodeRun, hfn, hs]
        simp only [nodeRunIter, hrun]
        have h2 := ih { n with started := true, spawned := n.spawned + 1 }
        simp at h2
        simp only [if_neg hs]
        omega

lemma nodeRunIter_spawned_eq (k : Nat) (n : Node) (hk : 1 ≤ k)
    (hs : n.started = false) (hb : firstNilInput n = none) :
    (nodeRunIter k n).spawned = n.spawned + 1 := by
  obtain ⟨k1, rfl⟩ : ∃ k1, k = k1 + 1 := ⟨k - 1, by omega⟩
  have hrun : nodeRun n =
      ({ n with started := true, spawned := n.spawned + 1 }, none) := by
    simp [nodeRun, hb, hs]
  simp only [nodeRunIter, hrun]
  rw [nodeRunIter_fix k1 { n with started := true, spawned := n.spawned + 1 }
    (by exact hb) rfl]

lemma pipeRun_running (p : Pipe) (h : p.run = true) : pipeRun p = (p, none) := by
  simp [pipeRun, h]

lemma runNodes_ok (ns : List Node) (hb : ∀ n ∈ ns, firstNilInput n = none) :
    runNodes ns = (ns.map (fun n => (nodeRun n).1), none) := by
  induction ns with
  | nil => rfl
  | cons n rest ih =>
    have h2 : (nodeRun n).2 = none := nodeRun_snd_none n (hb n (by simp))
    cases hnr : nodeRun n with
    | mk n1 e =>
      have he : e = none := by rw [hnr] at h2; exact h2
      subst he
      simp [runNodes, hnr, ih (fun m hm => hb m (by simp [hm]))]

/-- C4: start is idempotent. Invoking `Run` any number of times on a node
spawns its worker at most once — exactly once as soon as it is invoked at
least once on a startable node — and invoking `Run` on a pipeline that is
already Running is a no-op, so running a fresh pipeline twice leaves every
node with exactly one worker execution. -/
theorem c4_idempotent_start :
    (∀ k n, n.started = false → n.spawned = 0 →
      (nodeRunIter k n).spawned ≤ 1)
    ∧ (∀ k n, 1 ≤ k → n.started = false → n.spawned = 0 →
        firstNilInput n = none → (nodeRunIter k n).spawned = 1)
    ∧ (∀ p : Pipe, p.run = true → pipeRun p = (p, none))
    ∧ (∀ p : Pipe, p.run = false →
        (∀ n ∈ p.nodes, n.started = false ∧ n.spawned = 0 ∧
          firstNilInput n = none) →
        pipeRun (pipeRun p).1 = ((pipeRun p).1, none) ∧
        ∀ n ∈ (pipeRun p).1.nodes, n.spawned = 1) := by
  refine ⟨?_, ?_, ?_, ?_⟩
  · intro k n hs h0
    have := nodeRunIter_spawned_le k n
    rw [hs] at this
    simp at this
    omega
  · intro k n hk hs h0 hb
    rw [nodeRunIter_spawned_eq k n hk hs hb, h0]
  · exact pipeRun_running
  · intro p hp hn
    have hrn : runNodes p.nodes = (p.nodes.map (fun n => (nodeRun n).1), none) :=
      runNodes_ok p.nodes (fun n h => (hn n h).2.2)
    have hq : (pipeRun p).1 =
        { p with run := true, nodes := p.nodes.map (fun n => (nodeRun n).1) } := by
      simp [pipeRun, hp, hrn]
    constructor
    · rw [hq]
      exact pipeRun_running _ rfl
    · rw [hq]
      intro m hm
      simp only [List.mem_map] at hm
      obtain ⟨n, hn2, rfl⟩ := hm
      obtain ⟨hs, h0, hb⟩ := hn n hn2
      have : nodeRun n =
          ({ n with started := true, spawned := n.spawned + 1 }, none) := by
        simp [nodeRun, hb, hs]
      rw [this]
      simp [h0]

theorem c4_idempotent_start_witness :
    (nodeRunIter 3
      { name := "n", inputsMask := 1, outputsMask := 0,
        inputs := [some ⟨4, 0⟩], outputs := [⟨7, 0⟩], handlerPresent := true,
        started := false, spawned := 0 }).spawned = 1 ∧
    pipeRun { run := true, errChanClosed := false, closeCount := 0,
              cancelled := false, nodes := [] } =
      ({ run := true, errChanClosed := false, closeCount := 0,
         cancelled := false, nodes := [] }, none) :=
  ⟨c4_idempotent_start.2.1 3 _ (by omega) rfl rfl rfl,
   c4_idempotent_start.2.2.1 _ rfl⟩

/-! ## C1: round-robin fan-out with non-blocking-first delivery -/

lemma sweep_spec (ready : Nat → Bool) (l : Nat) :
    ∀ fuel curr k, k < fuel → curr < l →
      ready ((curr + k) % l) = true →
      (∀ j, j < k → ready ((curr + j) % l) = false) →
      sweep ready l fuel curr =
        (some ((curr + k) % l), ((curr + k) % l + 1) % l) := by
  intro fuel
  induction fuel with
  | zero => intro curr k hk; omega
  | succ fuel ih =>
    intro curr k hk hcurr hr hall
    cases k with
    | zero =>
      simp only [Nat.add_zero] at hr ⊢
      rw [Nat.mod_eq_of_lt hcurr] at hr ⊢
      simp [sweep, hr]
    | succ k =>
      have h0 : ready curr = false := by
        have := hall 0 (Nat.succ_pos k)
        rwa [Nat.add_zero, Nat.mod_eq_of_lt hcurr] at this
      have hl : 0 < l := by omega
      have hmod : ∀ j : Nat, ((curr + 1) % l + j) % l = (curr + (j + 1)) % l := by
        intro j
        rw [Nat.mod_add_mod]
        congr 1
        omega
      simp only [sweep, h0, Bool.false_eq_true, if_false]
      rw [ih ((curr + 1) % l) k (by omega) (Nat.mod_lt _ hl) ?_ ?_]
      · rw [hmod k]
      · rw [hmod k]
        exact hr
      · intro j hj
        rw [hmod j]
        exact hall (j + 1) (by omega)

lemma sweep_lt (ready : Nat → Bool) (l : Nat) (hl : 0 < l) :
    ∀ fuel curr, curr < l →
      (sweep ready l fuel curr).2 < l ∧
      ∀ d, (sweep ready l fuel curr).1 = some d → d < l := by
  intro fuel
  induction fuel with
  | zero =>
    intro curr hcurr
    exact ⟨hcurr, fun d hd => by simp [sweep] at hd⟩
  | succ fuel ih =>
    intro curr hcurr
    by_cases hr : ready curr
    · refine ⟨?_, ?_⟩ <;> simp [sweep, hr]
      · exact Nat.mod_lt _ hl
      · exact hcurr
    · simp only [sweep, hr, Bool.false_eq_true, if_false]
      exact ih ((curr + 1) % l) (Nat.mod_lt _ hl)

lemma deliver_lt (ready : Nat → Bool) (l curr : Nat) (hl : 0 < l)
    (hcurr : curr < l) :
    (deliver ready l curr).1 < l ∧ (deliver ready l curr).2 < l := by
  obtain ⟨h2, h1⟩ := sweep_lt ready l hl l curr hcurr
  unfold deliver
  cases hs : sweep ready l l curr with
  | mk od c =>
    cases od with
    | some d =>
      refine ⟨h1 d ?_, ?_⟩
      · rw [hs]
      · rw [hs] at h2
        exact h2
    | none =>
      rw [hs] at h2
      exact ⟨h2, Nat.mod_lt _ hl⟩

lemma fanOutRun_dest_lt (ready : Nat → Nat → Bool) (l : Nat) (hl : 0 < l) :
    ∀ (items : List α) (k curr : Nat), curr < l →
      ∀ p ∈ (fanOutRun ready l items k curr).1, p.1 < l := by
  intro items
  induction items with
  | nil => intro k curr _ p hp; simp [fanOutRun] at hp
  | cons x xs ih =>
    intro k curr hcurr p hp
    obtain ⟨hd, hc⟩ := deliver_lt (ready k) l curr hl hcurr
    simp only [fanOutRun, List.mem_cons] at hp
    rcases hp with rfl | hp
    · exact hd
    · exact ih (k + 1) _ hc p hp

lemma fanOutRun_map_snd (ready : Nat → Nat → Bool) (l : Nat) :
    ∀ (items : List α) (k curr : Nat),
      (fanOutRun ready l items k curr).1.map Prod.snd = items := by
  intro items
  induction items with
  | nil => intro k curr; rfl
  | cons x xs ih => intro k curr; simp [fanOutRun, ih]

lemma sum_receivedBy (l : Nat) :
    ∀ as : List (Nat × α), (∀ p ∈ as, p.1 < l) →
      (∑ j in Finset.range l, ((receivedBy as j : List α) : Multiset α)) =
        ((as.map Prod.snd : List α) : Multiset α) := by
  intro as
  induction as with
  | nil => intro _; simp [receivedBy]
  | cons p as ih =>
    intro hlt
    obtain ⟨d, x⟩ := p
    have hrec : ∀ j, (receivedBy ((d, x) :: as) j : Multiset α) =
        (if d = j then (x ::ₘ (receivedBy as j : Multiset α))
         else (receivedBy as j : Multiset α)) := by
      intro j
      simp only [receivedBy, List.filter_cons]
      by_cases hj : d = j
      · simp [hj]
      · simp [hj]
    have hsum : (∑ j in Finset.range l,
        ((receivedBy ((d, x) :: as) j : List α) : Multiset α)) =
        ∑ j in Finset.range l,
          ((if d = j then ({x} : Multiset α) else 0) +
            ((receivedBy as j : List α) : Multiset α)) := by
      refine Finset.sum_congr rfl fun j _ => ?_
      rw [hrec j]
      by_cases hj : d = j
      · simp [hj, Multiset.singleton_add]
      · simp [hj]
    rw [hsum, Finset.sum_add_distrib, ih (fun q hq => hlt q (by simp [hq]))]
    have hd : d ∈ Finset.range l := Finset.mem_range.mpr (hlt (d, x) (by simp))
    rw [Finset.sum_ite_eq (Finset.range l) d (fun _ => ({x} : Multiset α)),
      if_pos hd]
    simp [Multiset.singleton_add]

/-- C1: the split primitive delivers each item to exactly one destination,
chosen round-robin with the non-blocking-first policy: the first destination
at cyclic offset `k` from the rotation pointer that accepts wins, with the
pointer left one past the winner (first conjunct); the per-destination
streams partition the input exactly (second conjunct); and the two-destination
always-ready scenario on `[1,2,3,4]` deterministically yields `[1,3]` and
`[2,4]` (last conjuncts). -/
theorem c1_fanout_round_robin :
    (∀ (ready : Nat → Bool) (l curr k : Nat), curr < l → k < l →
      ready ((curr + k) % l) = true →
      (∀ j, j < k → ready ((curr + j) % l) = false) →
      deliver ready l curr = ((curr + k) % l, ((curr + k) % l + 1) % l))
    ∧ (∀ (α : Type) (ready : Nat → Nat → Bool) (l : Nat) (items : List α)
        (k curr : Nat), 0 < l → curr < l →
        (∑ j in Finset.range l,
          ((receivedBy (fanOutRun ready l items k curr).1 j : List α) :
            Multiset α)) = (items : Multiset α))
    ∧ receivedBy (fanOutRun (fun _ _ => true) 2 [1, 2, 3, 4] 0 0).1 0 = [1, 3]
    ∧ receivedBy (fanOutRun (fun _ _ => true) 2 [1, 2, 3, 4] 0 0).1 1 = [2, 4] := by
  refine ⟨?_, ?_, by decide, by decide⟩
  · intro ready l curr k hcurr hk hr hall
    unfold deliver
    rw [sweep_spec ready l l curr k hk hcurr hr hall]
  · intro α ready l items k curr hl hcurr
    rw [sum_receivedBy l (fanOutRun ready l items k curr).1
      (fanOutRun_dest_lt ready l hl items k curr hcurr),
      fanOutRun_map_snd]

theorem c1_fanout_round_robin_witness :
    deliver (fun d => decide (d = 1)) 3 2 = (1, 2) ∧
    (∑ j in Finset.range 2,
      ((receivedBy (fanOutRun (fun _ _ => true) 2 [1, 2, 3, 4] 0 0).1 j :
        List Nat) : Multiset Nat)) = (([1, 2, 3, 4] : List Nat) : Multiset Nat) := by
  constructor
  · have h := c1_fanout_round_robin.1 (fun d => decide (d = 1)) 3 2 2
      (by omega) (by omega) (by decide) (by decide)
    simpa using h
  · exact c1_fanout_round_robin.2.1 Nat (fun _ _ => true) 2 [1, 2, 3, 4] 0 0
      (by omega) (by omega)

/-! ## C2: fan-in emits exactly the union of the sources -/

lemma coe_append_eq (l1 l2 : List α) :
    ((l1 ++ l2 : List α) : Multiset α) = (l1 : Multiset α) + (l2 : Multiset α) :=
  (Multiset.coe_add l1 l2).symm

lemma coe_cons_eq (x : α) (l : List α) :
    ((x :: l : List α) : Multiset α) = ({x} : Multiset α) + (l : Multiset α) := by
  rw [show x :: l = [x] ++ l from rfl, coe_append_eq, Multiset.coe_singleton]

lemma fanInStep_eq_none (s : FanInSt α) (i : Nat)
    (h : s.workers.get? i = none) : fanInStep s i = s := by
  unfold fanInStep
  rw [h]

lemma fanInStep_eq (s : FanInSt α) (i : Nat) (w : Worker α)
    (h : s.workers.get? i = some w) :
    fanInStep s i =
      (if w.done then s
       else match w.remaining with
         | x :: rest => ⟨s.workers.set i ⟨rest, false⟩, s.out ++ [x]⟩
         | [] => ⟨s.workers.set i ⟨[], true⟩, s.out⟩) := by
  unfold fanInStep
  rw [h]

lemma fanInStep_total (out : List α) :
    ∀ (ws : List (Worker α)) (i : Nat),
      fanInTotal (fanInStep ⟨ws, out⟩ i) = fanInTotal ⟨ws, out⟩ := by
  intro ws
  induction ws generalizing out with
  | nil => intro i; rfl
  | cons w t ih =>
    intro i
    cases i with
    | zero =>
      obtain ⟨rem, dn⟩ := w
      cases dn with
      | true => rfl
      | false =>
        cases rem with
        | nil => rfl
        | cons x rest =>
          have hstep : fanInStep ⟨⟨x :: rest, false⟩ :: t, out⟩ 0 =
              ⟨⟨rest, false⟩ :: t, out ++ [x]⟩ := rfl
          rw [hstep]
          simp only [fanInTotal, List.map_cons, List.sum_cons]
          rw [coe_cons_eq x rest, coe_append_eq out [x]]
          simp only [Multiset.coe_singleton]
          abel
    | succ i =>
      have hkey : fanInTotal (fanInStep ⟨w :: t, out⟩ (i + 1)) =
          (w.remaining : Multiset α) + fanInTotal (fanInStep ⟨t, out⟩ i) := by
        cases hv : t.get? i with
        | none =>
          rw [fanInStep_eq_none ⟨w :: t, out⟩ (i + 1)
              (by rw [List.get?_cons_succ]; exact hv),
            fanInStep_eq_none ⟨t, out⟩ i hv]
          simp only [fanInTotal, List.map_cons, List.sum_cons]
          abel
        | some v =>
          obtain ⟨vrem, vdn⟩ := v
          cases vdn with
          | true =>
            rw [fanInStep_eq ⟨w :: t, out⟩ (i + 1) ⟨vrem, true⟩
                (by rw [List.get?_cons_succ]; exact hv),
              fanInStep_eq ⟨t, out⟩ i ⟨vrem, true⟩ hv]
            simp only [eq_self_iff_true, if_true, Bool.false_eq_true, if_false,
              fanInTotal, List.map_cons, List.sum_cons]
            abel
          | false =>
            cases vrem with
            | nil =>
              rw [fanInStep_eq ⟨w :: t, out⟩ (i + 1) ⟨[], false⟩
                  (by rw [List.get?_cons_succ]; exact hv),
                fanInStep_eq ⟨t, out⟩ i ⟨[], false⟩ hv]
              simp only [eq_self_iff_true, if_true, Bool.false_eq_true,
                if_false, fanInTotal, List.map_cons, List.sum_cons,
                List.set_cons_succ]
              abel
            | cons x rest =>
              rw [fanInStep_eq ⟨w :: t, out⟩ (i + 1) ⟨x :: rest, false⟩
                  (by rw [List.get?_cons_succ]; exact hv),
                fanInStep_eq ⟨t, out⟩ i ⟨x :: rest, false⟩ hv]
              simp only [eq_self_iff_true, if_true, Bool.false_eq_true,
                if_false, fanInTotal, List.map_cons, List.sum_cons,
                List.set_cons_succ]
              abel
      rw [hkey, ih out i]
      simp only [fanInTotal, List.map_cons, List.sum_cons]
      abel

lemma fanInStep_total_state (s : FanInSt α) (i : Nat) :
    fanInTotal (fanInStep s i) = fanInTotal s := by
  obtain ⟨ws, out⟩ := s
  exact fanInStep_total out ws i

lemma fanInStep_doneInv (s : FanInSt α) (i : Nat)
    (h : ∀ w ∈ s.workers, w.done = true → w.remaining = []) :
    ∀ w ∈ (fanInStep s i).workers, w.done = true → w.remaining = [] := by
  unfold fanInStep
  cases hv : s.workers.get? i with
  | none => exact h
  | some v =>
    by_cases hd : v.done
    · simp only [hd, if_true]
      exact h
    · simp only [hd, if_false]
      cases hrem : v.remaining with
      | nil =>
        intro w hw
        rcases List.mem_or_eq_of_mem_set hw with hmem | rfl
        · exact h w hmem
        · intro _; rfl
      | cons x rest =>
        intro w hw
        rcases List.mem_or_eq_of_mem_set hw with hmem | rfl
        · exact h w hmem
        · intro hfalse; simp at hfalse

lemma fanInRun_total (inputs : List (List α)) (sched : List Nat) :
    fanInTotal (fanInRun inputs sched) =
      (inputs.map (fun l => Multiset.ofList l)).sum := by
  have hrun : ∀ (s : FanInSt α) (sc : List Nat),
      fanInTotal (sc.foldl fanInStep s) = fanInTotal s := by
    intro s sc
    induction sc generalizing s with
    | nil => rfl
    | cons a sc ih => rw [List.foldl_cons, ih, fanInStep_total_state]
  unfold fanInRun
  rw [hrun]
  unfold fanInTotal
  rw [List.map_map]
  simp only [Multiset.coe_nil, zero_add]
  rfl

lemma fanInRun_doneInv (inputs : List (List α)) (sched : List Nat) :
    ∀ w ∈ (fanInRun inputs sched).workers, w.done = true → w.remaining = [] := by
  have hrun : ∀ (s : FanInSt α) (sc : List Nat),
      (∀ w ∈ s.workers, w.done = true → w.remaining = []) →
      ∀ w ∈ (sc.foldl fanInStep s).workers, w.done = true → w.remaining = [] := by
    intro s sc
    induction sc generalizing s with
    | nil => exact fun h => h
    | cons a sc ih =>
      intro h
      rw [List.foldl_cons]
      exact ih _ (fanInStep_doneInv s a h)
  refine hrun _ sched ?_
  intro w hw
  simp only [List.mem_map] at hw
  obtain ⟨l, -, rfl⟩ := hw
  intro hfalse
  simp at hfalse

/-- C2: for every set of source streams with finite item sequences and every
uncancelled interleaving, once the merge primitive's close condition holds
(every copier goroutine has ended, which is when `close(out)` fires), the
merged stream has emitted exactly the multiset union of all source items — no
loss, no duplication — and every source stream has been consumed to its close;
the output is never closed while a source still holds items. -/
theorem c2_fanin_completeness (α : Type) (inputs : List (List α))
    (sched : List Nat)
    (hclosed : fanInClosed (fanInRun inputs sched) = true) :
    ((fanInRun inputs sched).out : Multiset α) =
      (inputs.map (fun l => Multiset.ofList l)).sum
    ∧ ∀ w ∈ (fanInRun inputs sched).workers, w.remaining = [] := by
  have hdone : ∀ w ∈ (fanInRun inputs sched).workers, w.done = true := by
    intro w hw
    exact List.all_eq_true.mp hclosed w hw
  have hempty : ∀ w ∈ (fanInRun inputs sched).workers, w.remaining = [] :=
    fun w hw => fanInRun_doneInv inputs sched w hw (hdone w hw)
  refine ⟨?_, hempty⟩
  have htot := fanInRun_total inputs sched
  unfold fanInTotal at htot
  have hzero : ((fanInRun inputs sched).workers.map
      (fun w => (w.remaining : Multiset α))).sum = 0 := by
    apply List.sum_eq_zero
    intro m hm
    simp only [List.mem_map] at hm
    obtain ⟨w, hw, rfl⟩ := hm
    rw [hempty w hw]
    rfl
  rw [hzero, add_zero] at htot
  exact htot

theorem c2_fanin_completeness_witness :
    ((fanInRun [[1, 2], [3], [4, 5]]
        [0, 1, 2, 0, 2, 1, 0, 2, 0, 1, 2]).out : Multiset Nat) =
      (([[1, 2], [3], [4, 5]] : List (List Nat)).map
        (fun l => Multiset.ofList l)).sum :=
  (c2_fanin_completeness Nat [[1, 2], [3], [4, 5]]
    [0, 1, 2, 0, 2, 1, 0, 2, 0, 1, 2] (by decide)).1

/-! ## C5: auto-wiring binds vacant slots in ascending order and fails on
exhaustion -/

lemma find?_eq_head?_filter (p : β → Bool) :
    ∀ l : List β, l.find? p = (l.filter p).head? := by
  intro l
  induction l with
  | nil => rfl
  | cons a t ih =>
    by_cases h : p a
    · rw [List.find?_cons_of_pos _ h, List.filter_cons, if_pos h]
      rfl
    · rw [List.find?_cons_of_neg _ h, List.filter_cons, if_neg h, ih]

lemma vacantInput_eq_head (n : Node) :
    vacantInput n = (vacantListIn n).head? :=
  find?_eq_head?_filter _ _

lemma vacantOutput_eq_head (n : Node) :
    vacantOutput n = (vacantListOut n).head? :=
  find?_eq_head?_filter _ _

lemma filter_ne_head (idx : Nat) (tl : List Nat)
    (hp : (idx :: tl).Pairwise (· < ·)) :
    (idx :: tl).filter (fun i => !(i == idx)) = tl := by
  rw [List.filter_cons]
  have h0 : (!(idx == idx)) = false := by simp
  rw [h0]
  simp only [Bool.false_eq_true, if_false]
  apply List.filter_eq_self.mpr
  intro a ha
  have hlt : idx < a := (List.pairwise_cons.mp hp).1 a ha
  simp only [Bool.not_eq_true']
  exact beq_eq_false_iff_ne.mpr (by omega)

lemma setInput_ok (n : Node) (idx : Nat) (ch : Chan)
    (h : idx < n.inputs.length) :
    setInput n (idx : Int) ch = .ok
      { n with inputs := n.inputs.set idx (some ch),
               inputsMask := setBit n.inputsMask idx } := by
  unfold setInput
  rw [if_neg (by omega)]
  simp only [Int.toNat_natCast]

lemma autowireInput_spec : ∀ (chs : List Chan) (n : Node),
    (autowireInput n chs).1.name = n.name ∧
    (autowireInput n chs).1.inputs.length = n.inputs.length ∧
    ((autowireInput n chs).2 =
      if chs.length ≤ (vacantListIn n).length then none
      else some (wrapError n.name ErrInputsWired)) ∧
    vacantListIn (autowireInput n chs).1 = (vacantListIn n).drop chs.length ∧
    (∀ i, bitSet n.inputsMask i = true →
      (autowireInput n chs).1.inputs.get? i = n.inputs.get? i ∧
      bitSet (autowireInput n chs).1.inputsMask i = true) ∧
    (∀ j v ch, (vacantListIn n).get? j = some v → chs.get? j = some ch →
      (autowireInput n chs).1.inputs.get? v = some (some ch)) := by
  intro chs
  induction chs with
  | nil =>
    intro n
    refine ⟨rfl, rfl,
      by rw [if_pos (show List.length ([] : List Chan) ≤
          (vacantListIn n).length by simp)]
         rfl, rfl,
      fun i h => ⟨rfl, h⟩, ?_⟩
    intro j v ch _ hc
    simp at hc
  | cons ch rest ih =>
    intro n
    cases hv : vacantListIn n with
    | nil =>
      have hvi : vacantInput n = none := by
        rw [vacantInput_eq_head, hv]
        rfl
      have ha : autowireInput n (ch :: rest) =
          (n, some (wrapError n.name ErrInputsWired)) := by
        unfold autowireInput
        rw [hvi]
      rw [ha]
      refine ⟨rfl, rfl, by simp [hv], by simp [hv], fun i h => ⟨rfl, h⟩, ?_⟩
      intro j v ch2 hj _
      simp at hj
    | cons idx tl =>
      have hmem : idx ∈ vacantListIn n := by
        rw [hv]
        exact List.mem_cons_self _ _
      have hmem2 := List.mem_filter.mp hmem
      have hidx_lt : idx < n.inputs.length := List.mem_range.mp hmem2.1
      have hidx_clear : bitSet n.inputsMask idx = false := by
        simpa using hmem2.2
      have hvi : vacantInput n = some idx := by
        rw [vacantInput_eq_head, hv]
        rfl
      set n1 : Node := { n with inputs := n.inputs.set idx (some ch),
                                inputsMask := setBit n.inputsMask idx } with hn1
      have hset : setInput n (idx : Int) ch = .ok n1 := setInput_ok n idx ch hidx_lt
      have ha : autowireInput n (ch :: rest) = autowireInput n1 rest := by
        conv_lhs => unfold autowireInput
        simp only [hvi, hset]
      have hlen1 : n1.inputs.length = n.inputs.length := List.length_set _ _ _
      have hsorted : (idx :: tl).Pairwise (· < ·) := by
        rw [← hv]
        exact (List.pairwise_lt_range _).filter _
      have hvl1 : vacantListIn n1 = tl := by
        have h1 : vacantListIn n1 = (List.range n.inputs.length).filter
            (fun i => !bitSet (setBit n.inputsMask idx) i) := by
          unfold vacantListIn
          rw [hlen1]
        have h2 : (List.range n.inputs.length).filter
            (fun i => !bitSet (setBit n.inputsMask idx) i) =
            (List.range n.inputs.length).filter
            (fun i => (!(i == idx)) && !bitSet n.inputsMask i) := by
          apply List.filter_congr
          intro a _
          by_cases hai : a = idx
          · subst hai
            simp [bitSet_setBit_self]
          · rw [bitSet_setBit_of_ne _ hai]
            have : (a == idx) = false := beq_eq_false_iff_ne.mpr hai
            rw [this]
            simp
        have h3 : (List.range n.inputs.length).filter
            (fun i => (!(i == idx)) && !bitSet n.inputsMask i) =
            (vacantListIn n).filter (fun i => !(i == idx)) :=
          (List.filter_filter _ _).symm
        rw [h1, h2, h3, hv]
        exact filter_ne_head idx tl hsorted
      obtain ⟨ihname, ihlen, iherr, ihvl, ihpres, ihbind⟩ := ih n1
      rw [ha]
      refine ⟨ihname.trans rfl, ihlen.trans hlen1, ?_, ?_, ?_, ?_⟩
      · rw [iherr, hvl1]
        by_cases hc : rest.length ≤ tl.length
        · rw [if_pos hc, if_pos (by simp only [List.length_cons]; omega)]
        · rw [if_neg hc, if_neg (by simp only [List.length_cons]; omega)]
      · rw [ihvl, hvl1]
        rfl
      · intro i hbit
        have hne : i ≠ idx := by
          intro heq
          rw [heq, hidx_clear] at hbit
          cases hbit
        have hb1 : bitSet n1.inputsMask i = true := by
          rw [hn1]
          show bitSet (setBit n.inputsMask idx) i = true
          rw [bitSet_setBit_of_ne _ hne]
          exact hbit
        obtain ⟨hp1, hp2⟩ := ihpres i hb1
        refine ⟨hp1.trans ?_, hp2⟩
        rw [hn1]
        show (n.inputs.set idx (some ch)).get? i = n.inputs.get? i
        rw [List.get?_eq_getElem?, List.get?_eq_getElem?,
          List.getElem?_set_ne (Ne.symm hne)]
      · intro j v ch2 hj hc
        cases j with
        | zero =>
          simp only [List.get?_cons_zero, Option.some.injEq] at hj hc
          subst hj
          subst hc
          have hb1 : bitSet n1.inputsMask idx = true := by
            rw [hn1]
            exact bitSet_setBit_self _ _
          obtain ⟨hp1, -⟩ := ihpres idx hb1
          rw [hp1, hn1]
          show (n.inputs.set idx (some ch)).get? idx = some (some ch)
          rw [List.get?_eq_getElem?, List.getElem?_set_self hidx_lt]
        | succ j =>
          simp only [List.get?_cons_succ] at hj hc
          exact ihbind j v ch2 (by rw [hvl1]; exact hj) hc

lemma setOutput_ok (n : Node) (idx : Nat) (ch : Chan)
    (h : idx < n.outputs.length) :
    setOutput n (idx : Int) ch = .ok
      { n with outputs := n.outputs.set idx ch,
               outputsMask := setBit n.outputsMask idx } := by
  unfold setOutput
  rw [if_neg (by omega)]
  simp only [Int.toNat_natCast]

lemma autowireOutput_spec : ∀ (chs : List Chan) (n : Node),
    (autowireOutput n chs).1.name = n.name ∧
    (autowireOutput n chs).1.outputs.length = n.outputs.length ∧
    ((autowireOutput n chs).2 =
      if chs.length ≤ (vacantListOut n).length then none
      else some (wrapError n.name ErrOutputsWired)) ∧
    vacantListOut (autowireOutput n chs).1 = (vacantListOut n).drop chs.length ∧
    (∀ i, bitSet n.outputsMask i = true →
      (autowireOutput n chs).1.outputs.get? i = n.outputs.get? i ∧
      bitSet (autowireOutput n chs).1.outputsMask i = true) ∧
    (∀ j v ch, (vacantListOut n).get? j = some v → chs.get? j = some ch →
      (autowireOutput n chs).1.outputs.get? v = some ch) := by
  intro chs
  induction chs with
  | nil =>
    intro n
    refine ⟨rfl, rfl,
      by rw [if_pos (show List.length ([] : List Chan) ≤
          (vacantListOut n).length by simp)]
         rfl, rfl,
      fun i h => ⟨rfl, h⟩, ?_⟩
    intro j v ch _ hc
    simp at hc
  | cons ch rest ih =>
    intro n
    cases hv : vacantListOut n with
    | nil =>
      have hvi : vacantOutput n = none := by
        rw [vacantOutput_eq_head, hv]
        rfl
      have ha : autowireOutput n (ch :: rest) =
          (n, some (wrapError n.name ErrOutputsWired)) := by
        unfold autowireOutput
        rw [hvi]
      rw [ha]
      refine ⟨rfl, rfl, by simp [hv], by simp [hv], fun i h => ⟨rfl, h⟩, ?_⟩
      intro j v ch2 hj _
      simp at hj
    | cons idx tl =>
      have hmem : idx ∈ vacantListOut n := by
        rw [hv]
        exact List.mem_cons_self _ _
      have hmem2 := List.mem_filter.mp hmem
      have hidx_lt : idx < n.outputs.length := List.mem_range.mp hmem2.1
      have hidx_clear : bitSet n.outputsMask idx = false := by
        simpa using hmem2.2
      have hvi : vacantOutput n = some idx := by
        rw [vacantOutput_eq_head, hv]
        rfl
      set n1 : Node := { n with outputs := n.outputs.set idx ch,
                                outputsMask := setBit n.outputsMask idx } with hn1
      have hset : setOutput n (idx : Int) ch = .ok n1 := setOutput_ok n idx ch hidx_lt
      have ha : autowireOutput n (ch :: rest) = autowireOutput n1 rest := by
        conv_lhs => unfold autowireOutput
        simp only [hvi, hset]
      have hlen1 : n1.outputs.length = n.outputs.length := List.length_set _ _ _
      have hsorted : (idx :: tl).Pairwise (· < ·) := by
        rw [← hv]
        exact (List.pairwise_lt_range _).filter _
      have hvl1 : vacantListOut n1 = tl := by
        have h1 : vacantListOut n1 = (List.range n.outputs.length).filter
            (fun i => !bitSet (setBit n.outputsMask idx) i) := by
          unfold vacantListOut
          rw [hlen1]
        have h2 : (List.range n.outputs.length).filter
            (fun i => !bitSet (setBit n.outputsMask idx) i) =
            (List.range n.outputs.length).filter
            (fun i => (!(i == idx)) && !bitSet n.outputsMask i) := by
          apply List.filter_congr
          intro a _
          by_cases hai : a = idx
          · subst hai
            simp [bitSet_setBit_self]
          · rw [bitSet_setBit_of_ne _ hai]
            have : (a == idx) = false := beq_eq_false_iff_ne.mpr hai
            rw [this]
            simp
        have h3 : (List.range n.outputs.length).filter
            (fun i => (!(i == idx)) && !bitSet n.outputsMask i) =
            (vacantListOut n).filter (fun i => !(i == idx)) :=
          (List.filter_filter _ _).symm
        rw [h1, h2, h3, hv]
        exact filter_ne_head idx tl hsorted
      obtain ⟨ihname, ihlen, iherr, ihvl, ihpres, ihbind⟩ := ih n1
      rw [ha]
      refine ⟨ihname.trans rfl, ihlen.trans hlen1, ?_, ?_, ?_, ?_⟩
      · rw [iherr, hvl1]
        by_cases hc : rest.length ≤ tl.length
        · rw [if_pos hc, if_pos (by simp only [List.length_cons]; omega)]
        · rw [if_neg hc, if_neg (by simp only [List.length_cons]; omega)]
      · rw [ihvl, hvl1]
        rfl
      · intro i hbit
        have hne : i ≠ idx := by
          intro heq
          rw [heq, hidx_clear] at hbit
          cases hbit
        have hb1 : bitSet n1.outputsMask i = true := by
          rw [hn1]
          show bitSet (setBit n.outputsMask idx) i = true
          rw [bitSet_setBit_of_ne _ hne]
          exact hbit
        obtain ⟨hp1, hp2⟩ := ihpres i hb1
        refine ⟨hp1.trans ?_, hp2⟩
        rw [hn1]
        show (n.outputs.set idx ch).get? i = n.outputs.get? i
        rw [List.get?_eq_getElem?, List.get?_eq_getElem?,
          List.getElem?_set_ne (Ne.symm hne)]
      · intro j v ch2 hj hc
        cases j with
        | zero =>
          simp only [List.get?_cons_zero, Option.some.injEq] at hj hc
          subst hj
          subst hc
          have hb1 : bitSet n1.outputsMask idx = true := by
            rw [hn1]
            exact bitSet_setBit_self _ _
          obtain ⟨hp1, -⟩ := ihpres idx hb1
          rw [hp1, hn1]
          show (n.outputs.set idx ch).get? idx = some ch
          rw [List.get?_eq_getElem?, List.getElem?_set_self hidx_lt]
        | succ j =>
          simp only [List.get?_cons_succ] at hj hc
          exact ihbind j v ch2 (by rw [hvl1]; exact hj) hc

/-- C5: auto-wiring binds each channel of a batch to the next vacant slot in
ascending index order (the vacancy lists are strictly sorted and binding `j`
lands on the `j`-th vacant index), never touches an already-occupied slot, and
a batch larger than the number `N` of vacant slots fails with the exhaustion
error wrapped in the node's name — a batch of at most `N` succeeds, so the
failure happens at exactly the `(N+1)`-th binding, with the earlier bindings
kept. Stated for input wiring and output wiring alike. -/
theorem c5_autowire_exhaustion (n : Node) (chs : List Chan) :
    (List.Sorted (· < ·) (vacantListIn n) ∧
      ((vacantListIn n).length < chs.length →
        (autowireInput n chs).2 = some (wrapError n.name ErrInputsWired)) ∧
      (chs.length ≤ (vacantListIn n).length → (autowireInput n chs).2 = none) ∧
      (∀ j v ch, (vacantListIn n).get? j = some v → chs.get? j = some ch →
        (autowireInput n chs).1.inputs.get? v = some (some ch)) ∧
      (∀ i, bitSet n.inputsMask i = true →
        (autowireInput n chs).1.inputs.get? i = n.inputs.get? i))
    ∧ (List.Sorted (· < ·) (vacantListOut n) ∧
      ((vacantListOut n).length < chs.length →
        (autowireOutput n chs).2 = some (wrapError n.name ErrOutputsWired)) ∧
      (chs.length ≤ (vacantListOut n).length → (autowireOutput n chs).2 = none) ∧
      (∀ j v ch, (vacantListOut n).get? j = some v → chs.get? j = some ch →
        (autowireOutput n chs).1.outputs.get? v = some ch) ∧
      (∀ i, bitSet n.outputsMask i = true →
        (autowireOutput n chs).1.outputs.get? i = n.outputs.get? i)) := by
  obtain ⟨-, -, ierr, -, ipres, ibind⟩ := autowireInput_spec chs n
  obtain ⟨-, -, oerr, -, opres, obind⟩ := autowireOutput_spec chs n
  refine ⟨⟨(List.pairwise_lt_range _).filter _, ?_, ?_, ibind,
      fun i h => (ipres i h).1⟩,
    ⟨(List.pairwise_lt_range _).filter _, ?_, ?_, obind,
      fun i h => (opres i h).1⟩⟩
  · intro hlt
    rw [ierr, if_neg (by omega)]
  · intro hle
    rw [ierr, if_pos hle]
  · intro hlt
    rw [oerr, if_neg (by omega)]
  · intro hle
    rw [oerr, if_pos hle]

theorem c5_autowire_exhaustion_witness :
    ((autowireInput
        { name := "x", inputsMask := 0, outputsMask := 0,
          inputs := [none, none], outputs := [], handlerPresent := true,
          started := false, spawned := 0 }
        [⟨10, 0⟩, ⟨11, 0⟩, ⟨12, 0⟩]).2 = some "[x] all inputs are wire")
    ∧ ((autowireInput
        { name := "x", inputsMask := 0, outputsMask := 0,
          inputs := [none, none], outputs := [], handlerPresent := true,
          started := false, spawned := 0 }
        [⟨10, 0⟩, ⟨11, 0⟩, ⟨12, 0⟩]).1.inputs.get? 0 = some (some ⟨10, 0⟩))
    ∧ ((autowireInput
        { name := "x", inputsMask := 0, outputsMask := 0,
          inputs := [none, none], outputs := [], handlerPresent := true,
          started := false, spawned := 0 }
        [⟨10, 0⟩, ⟨11, 0⟩, ⟨12, 0⟩]).1.inputs.get? 1 = some (some ⟨11, 0⟩)) := by
  obtain ⟨⟨-, ierr, -, ibind, -⟩, -⟩ := c5_autowire_exhaustion
    { name := "x", inputsMask := 0, outputsMask := 0,
      inputs := [none, none], outputs := [], handlerPresent := true,
      started := false, spawned := 0 }
    [⟨10, 0⟩, ⟨11, 0⟩, ⟨12, 0⟩]
  refine ⟨?_, ?_, ?_⟩
  · have h := ierr (by decide)
    simpa [wrapError, ErrInputsWired] using h
  · exact ibind 0 0 ⟨10, 0⟩ (by decide) rfl
  · exact ibind 1 1 ⟨11, 0⟩ (by decide) rfl

/-! ## C8: the occupancy bit-sets versus the slots -/

lemma nodeInv_setIn_record (n : Node) (t : Nat) (ch : Chan)
    (hlt : t < n.inputs.length) (h : nodeInv n) :
    nodeInv { n with inputs := n.inputs.set t (some ch),
                     inputsMask := setBit n.inputsMask t } := by
  obtain ⟨h1, h2⟩ := h
  constructor
  · intro i
    show bitSet (setBit n.inputsMask t) i = true ↔
      ∃ c, (n.inputs.set t (some ch)).get? i = some (some c)
    by_cases hit : i = t
    · subst hit
      rw [bitSet_setBit_self]
      simp only [true_iff]
      exact ⟨ch, by rw [List.get?_eq_getElem?, List.getElem?_set_self hlt]⟩
    · rw [bitSet_setBit_of_ne _ hit, List.get?_eq_getElem?,
        List.getElem?_set_ne (Ne.symm hit), ← List.get?_eq_getElem?]
      exact h1 i
  · intro i hb
    exact h2 i hb

lemma nodeInv_setOut_record (n : Node) (t : Nat) (ch : Chan)
    (hlt : t < n.outputs.length) (h : nodeInv n) :
    nodeInv { n with outputs := n.outputs.set t ch,
                     outputsMask := setBit n.outputsMask t } := by
  obtain ⟨h1, h2⟩ := h
  constructor
  · exact h1
  · intro i hb
    show i < (n.outputs.set t ch).length
    rw [List.length_set]
    by_cases hit : i = t
    · omega
    · exact h2 i (by rwa [bitSet_setBit_of_ne _ hit] at hb)

lemma nodeInv_outMask_record (n : Node) (t : Nat)
    (hlt : t < n.outputs.length) (h : nodeInv n) :
    nodeInv { n with outputsMask := setBit n.outputsMask t } := by
  obtain ⟨h1, h2⟩ := h
  refine ⟨h1, ?_⟩
  intro i hb
  show i < n.outputs.length
  by_cases hit : i = t
  · omega
  · exact h2 i (by rwa [bitSet_setBit_of_ne _ hit] at hb)

lemma setInput_cases (n : Node) (idx : Int) (ch : Chan) :
    (∃ e, setInput n idx ch = .error e) ∨
    (idx.toNat < n.inputs.length ∧ setInput n idx ch = .ok
      { n with inputs := n.inputs.set idx.toNat (some ch),
               inputsMask := setBit n.inputsMask idx.toNat }) := by
  unfold setInput
  split
  · exact Or.inl ⟨_, rfl⟩
  · rename_i hcond
    exact Or.inr ⟨by omega, rfl⟩

lemma setOutput_cases (n : Node) (idx : Int) (ch : Chan) :
    (∃ e, setOutput n idx ch = .error e) ∨
    (idx.toNat < n.outputs.length ∧ setOutput n idx ch = .ok
      { n with outputs := n.outputs.set idx.toNat ch,
               outputsMask := setBit n.outputsMask idx.toNat }) := by
  unfold setOutput
  split
  · exact Or.inl ⟨_, rfl⟩
  · rename_i hcond
    exact Or.inr ⟨by omega, rfl⟩

lemma connect_cases (f : Node) (o : Int) (t : Node) (i : Int) :
    (∃ e, connect f o t i = .error e) ∨
    (o.toNat < f.outputs.length ∧ i.toNat < t.inputs.length ∧
      connect f o t i = .ok
        ({ f with outputsMask := setBit f.outputsMask o.toNat },
         { t with inputs := t.inputs.set i.toNat (some (f.outputs.getD o.toNat ⟨0, 0⟩)), inputsMask := setBit t.inputsMask i.toNat })) := by
  unfold connect
  split
  · exact Or.inl ⟨_, rfl⟩
  · split
    · exact Or.inl ⟨_, rfl⟩
    · rename_i h1 h2
      exact Or.inr ⟨by omega, by omega, rfl⟩

lemma vacantInput_lt (n : Node) (idx : Nat) (h : vacantInput n = some idx) :
    idx < n.inputs.length ∧ bitSet n.inputsMask idx = false := by
  unfold vacantInput at h
  have hmem := List.mem_of_find?_eq_some h
  have hp := List.find?_some h
  exact ⟨List.mem_range.mp hmem, by simpa using hp⟩

lemma vacantOutput_lt (n : Node) (idx : Nat) (h : vacantOutput n = some idx) :
    idx < n.outputs.length ∧ bitSet n.outputsMask idx = false := by
  unfold vacantOutput at h
  have hmem := List.mem_of_find?_eq_some h
  have hp := List.find?_some h
  exact ⟨List.mem_range.mp hmem, by simpa using hp⟩

lemma nodeInv_autowireInput : ∀ (chs : List Chan) (n : Node), nodeInv n →
    nodeInv (autowireInput n chs).1 := by
  intro chs
  induction chs with
  | nil => exact fun n h => h
  | cons ch rest ih =>
    intro n h
    cases hvi : vacantInput n with
    | none =>
      have ha : autowireInput n (ch :: rest) =
          (n, some (wrapError n.name ErrInputsWired)) := by
        unfold autowireInput
        rw [hvi]
      rw [ha]
      exact h
    | some idx =>
      obtain ⟨hlt, -⟩ := vacantInput_lt n idx hvi
      have hset := setInput_ok n idx ch hlt
      have ha : autowireInput n (ch :: rest) = autowireInput
          { n with inputs := n.inputs.set idx (some ch),
                   inputsMask := setBit n.inputsMask idx } rest := by
        conv_lhs => unfold autowireInput
        simp only [hvi, hset]
      rw [ha]
      exact ih _ (nodeInv_setIn_record n idx ch hlt h)

lemma nodeInv_autowireOutput : ∀ (chs : List Chan) (n : Node), nodeInv n →
    nodeInv (autowireOutput n chs).1 := by
  intro chs
  induction chs with
  | nil => exact fun n h => h
  | cons ch rest ih =>
    intro n h
    cases hvi : vacantOutput n with
    | none =>
      have ha : autowireOutput n (ch :: rest) =
          (n, some (wrapError n.name ErrOutputsWired)) := by
        unfold autowireOutput
        rw [hvi]
      rw [ha]
      exact h
    | some idx =>
      obtain ⟨hlt, -⟩ := vacantOutput_lt n idx hvi
      have hset := setOutput_ok n idx ch hlt
      have ha : autowireOutput n (ch :: rest) = autowireOutput
          { n with outputs := n.outputs.set idx ch,
                   outputsMask := setBit n.outputsMask idx } rest := by
        conv_lhs => unfold autowireOutput
        simp only [hvi, hset]
      rw [ha]
      exact ih _ (nodeInv_setOut_record n idx ch hlt h)

lemma nodeInv_autowire : ∀ (tos : List Node) (f : Node), nodeInv f →
    nodeInv (autowire f tos).1.1 := by
  intro tos
  induction tos with
  | nil => exact fun f h => h
  | cons t ts ih =>
    intro f h
    cases hvo : vacantOutput f with
    | none =>
      have ha : autowire f (t :: ts) =
          ((f, t :: ts), some (wrapError f.name ErrOutputsWired)) := by
        unfold autowire
        rw [hvo]
      rw [ha]
      exact h
    | some outIdx =>
      cases hvi : vacantInput t with
      | none =>
        have ha : autowire f (t :: ts) =
            ((f, t :: ts), some (wrapError t.name ErrInputsWired)) := by
          unfold autowire
          rw [hvo, hvi]
        rw [ha]
        exact h
      | some inIdx =>
        obtain ⟨hlo, -⟩ := vacantOutput_lt f outIdx hvo
        obtain ⟨hli, -⟩ := vacantInput_lt t inIdx hvi
        have hconn : connect f (outIdx : Int) t (inIdx : Int) = .ok
            ({ f with outputsMask := setBit f.outputsMask outIdx },
             { t with inputs := t.inputs.set inIdx (some (f.outputs.getD outIdx ⟨0, 0⟩)), inputsMask := setBit t.inputsMask inIdx }) := by
          unfold connect
          rw [if_neg (by omega), if_neg (by omega)]
          simp only [Int.toNat_natCast]
        have ha : (autowire f (t :: ts)).1.1 = (autowire
            { f with outputsMask := setBit f.outputsMask outIdx } ts).1.1 := by
          conv_lhs => unfold autowire
          simp only [hvo, hvi, hconn]
        rw [ha]
        exact ih _ (nodeInv_outMask_record f outIdx hlo h)

lemma nodeInv_applyOp (n : Node) (op : WireOp) (h : nodeInv n) :
    nodeInv (applyOp n op) := by
  cases op with
  | opSetInput idx ch =>
    show nodeInv (match setInput n idx ch with
      | .ok n1 => n1 | .error _ => n)
    rcases setInput_cases n idx ch with ⟨e, he⟩ | ⟨hlt, hok⟩
    · rw [he]
      exact h
    · rw [hok]
      exact nodeInv_setIn_record n idx.toNat ch hlt h
  | opSetOutput idx ch =>
    show nodeInv (match setOutput n idx ch with
      | .ok n1 => n1 | .error _ => n)
    rcases setOutput_cases n idx ch with ⟨e, he⟩ | ⟨hlt, hok⟩
    · rw [he]
      exact h
    · rw [hok]
      exact nodeInv_setOut_record n idx.toNat ch hlt h
  | opAutoIn chs => exact nodeInv_autowireInput chs n h
  | opAutoOut chs => exact nodeInv_autowireOutput chs n h
  | opConnectAsTo other outIdx inIdx =>
    show nodeInv (match connect other outIdx n inIdx with
      | .ok ft => ft.2 | .error _ => n)
    rcases connect_cases other outIdx n inIdx with ⟨e, he⟩ | ⟨hlo, hli, hok⟩
    · rw [he]
      exact h
    · rw [hok]
      exact nodeInv_setIn_record n inIdx.toNat _ hli h
  | opConnectAsFrom outIdx other inIdx =>
    show nodeInv (match connect n outIdx other inIdx with
      | .ok ft => ft.1 | .error _ => n)
    rcases connect_cases n outIdx other inIdx with ⟨e, he⟩ | ⟨hlo, hli, hok⟩
    · rw [he]
      exact h
    · rw [hok]
      exact nodeInv_outMask_record n outIdx.toNat hlo h
  | opAutowireAsFrom tos => exact nodeInv_autowire tos n h

lemma nodeInv_new (name : String) (inputNum outputNum : Nat)
    (sizes : Option (List Nat)) (hp : Bool) (fid : Nat) (n : Node)
    (h : new name inputNum outputNum sizes hp fid = .ok n) : nodeInv n := by
  unfold new at h
  split at h
  · cases h
  · split at h
    · cases h
    · split at h
      · cases h
      · injection h with h
        subst h
        constructor
        · intro i
          show bitSet 0 i = true ↔
            ∃ c, (List.replicate inputNum (none : Option Chan)).get? i =
              some (some c)
          rw [bitSet_zero]
          simp only [Bool.false_eq_true, false_iff, not_exists]
          intro c hc
          rw [List.get?_eq_getElem?] at hc
          rcases List.getElem?_eq_some_iff.mp hc with ⟨hi, hg⟩
          rw [List.getElem_replicate] at hg
          cases hg
        · intro i hb
          rw [bitSet_zero] at hb
          cases hb

/-- C8 (amended): after construction and any sequence of wiring operations,
the input bit-set satisfies the claimed invariant — bit `i` is set exactly
when input slot `i` holds a channel — while the output bit-set only satisfies
the weaker direction that a set bit points at an existing slot: `New` eagerly
fills every output slot with a fresh channel yet leaves all output bits clear,
so an output slot can be bound to a channel with its bit unset. -/
theorem c8_mask_invariant_amended (name : String) (inputNum outputNum : Nat)
    (sizes : Option (List Nat)) (hp : Bool) (fid : Nat) (n : Node)
    (h : new name inputNum outputNum sizes hp fid = .ok n)
    (ops : List WireOp) : nodeInv (ops.foldl applyOp n) := by
  have h0 : nodeInv n := nodeInv_new name inputNum outputNum sizes hp fid n h
  clear h
  induction ops generalizing n with
  | nil => exact h0
  | cons op rest ih =>
    rw [List.foldl_cons]
    exact ih (applyOp n op) (nodeInv_applyOp n op h0)

/-- C8 counterexample: right after `New` with one output, output slot 0 holds
a freshly allocated channel while output bit 0 is clear — the claimed "bit i
set iff slot i bound to a channel" fails in the slot-to-bit direction for
outputs. -/
theorem c8_mask_invariant_counterexample :
    ∃ n, new "x" 0 1 none true 0 = .ok n ∧
      n.outputs.get? 0 = some ⟨0, 0⟩ ∧ bitSet n.outputsMask 0 = false := by
  refine ⟨_, rfl, ?_, ?_⟩ <;> rfl

theorem c8_mask_invariant_amended_witness :
    nodeInv (List.foldl applyOp
      { name := "x", inputsMask := 0, outputsMask := 0, inputs := [none],
        outputs := [⟨7, 0⟩], handlerPresent := true, started := false,
        spawned := 0 }
      [WireOp.opSetInput 0 ⟨5, 1⟩, WireOp.opSetOutput 0 ⟨6, 2⟩]) :=
  c8_mask_invariant_amended "x" 1 1 none true 7
    { name := "x", inputsMask := 0, outputsMask := 0, inputs := [none],
      outputs := [⟨7, 0⟩], handlerPresent := true, started := false,
      spawned := 0 } rfl
    [WireOp.opSetInput 0 ⟨5, 1⟩, WireOp.opSetOutput 0 ⟨6, 2⟩]

end PipelineM
